import Mathlib

/-!
Shallow embedding of the toy-sequence training example
(`dynamic_rnn` notebook): the `ToySequenceData` generator and cyclic
batch reader, and the last-valid-timestep ("gather by flat index")
output selection inside `dynamicRNN`.

Modelling conventions:
* Python floats are modelled as rationals (`ℚ`); all arithmetic in the
  program stays within exact decimal fractions of `max_value`.
* The `random` module is modelled by injecting, per generated sample, the
  draws it would have produced (`GenChoice`).  `random.randint(a, b)`
  raises `ValueError` when `a > b`; the embedding returns `none` there.
* Python list slicing `l[a:b]` (with the nonnegative bounds used by the
  program) is `pySlice`.
* `tf.gather` raises an error on any out-of-range index; the embedding
  returns `none` there.  Indices are `ℤ` because `seqlen - 1` is signed
  int32 arithmetic in the graph.
-/

namespace DynamicRNN

/-- Python list slice `l[a:b]` for the nonnegative bounds used in the
program: drop `a` elements, keep at most `b - a`. -/
def pySlice {α : Type} (l : List α) (a b : ℕ) : List α :=
  (l.drop a).take (b - a)

/-- Left-to-right traversal where evaluating an element may fail (a Python
loop / list comprehension in which an iteration may raise). -/
def optTraverse {α β : Type} (f : α → Option β) : List α → Option (List β)
  | [] => some []
  | a :: as => (f a).bind fun b => (optTraverse f as).map fun bs => b :: bs

/-- The random draws consumed by one iteration of the generator loop in
`ToySequenceData.__init__`: the sequence length draw, the branch coin
(`random.random() < .5`), the linear start draw, and the value draws of
the random branch. -/
structure GenChoice where
  trueLen : ℕ
  isLinear : Bool
  randStart : ℕ
  randVals : List ℕ

/-- The draws of a `GenChoice` are within the ranges the `random` module
guarantees for the parameters `minLen`, `maxLen`, `maxValue`. -/
def GenChoice.Valid (minLen maxLen maxValue : ℕ) (c : GenChoice) : Prop :=
  minLen ≤ c.trueLen ∧ c.trueLen ≤ maxLen ∧
    (c.isLinear = true → c.randStart + c.trueLen ≤ maxValue) ∧
    (c.isLinear = false → c.randVals.length = c.trueLen ∧ ∀ v ∈ c.randVals, v ≤ maxValue)

instance (minLen maxLen maxValue : ℕ) (c : GenChoice) :
    Decidable (GenChoice.Valid minLen maxLen maxValue c) :=
  inferInstanceAs (Decidable (minLen ≤ c.trueLen ∧ c.trueLen ≤ maxLen ∧
    (c.isLinear = true → c.randStart + c.trueLen ≤ maxValue) ∧
    (c.isLinear = false → c.randVals.length = c.trueLen ∧ ∀ v ∈ c.randVals, v ≤ maxValue)))

/-- One iteration of the generator loop of `ToySequenceData.__init__`:
returns the padded sequence, the one-hot label and the recorded length,
or `none` where `random.randint` would raise on an empty range
(`min_seq_len > max_seq_len`, or `max_value - len < 0` in the linear
branch). -/
def genSample (maxSeqLen minSeqLen maxValue : ℕ) (c : GenChoice) :
    Option (List (List ℚ) × List ℚ × ℕ) :=
  if maxSeqLen < minSeqLen then none
  else if c.isLinear then
    if maxValue < c.trueLen then none
    else some
      ((List.range c.trueLen).map
          (fun j : ℕ => [(((c.randStart + j : ℕ) : ℚ)) / (maxValue : ℚ)])
         ++ List.replicate (maxSeqLen - c.trueLen) [(0 : ℚ)],
       [1, 0], c.trueLen)
  else some
    (c.randVals.map (fun v : ℕ => [((v : ℚ)) / (maxValue : ℚ)])
       ++ List.replicate (maxSeqLen - c.trueLen) [(0 : ℚ)],
     [0, 1], c.trueLen)

/-- The state of a `ToySequenceData` object: the three parallel lists and
the batch cursor. -/
structure ToySequenceData where
  data : List (List (List ℚ))
  labels : List (List ℚ)
  seqlen : List ℕ
  batch_id : ℕ
deriving DecidableEq

/-- `ToySequenceData.__init__` with the random draws injected: one
`GenChoice` per sample (`n_samples = choices.length`).  Returns `none`
when some iteration raises. -/
def ToySequenceData.init (maxSeqLen minSeqLen maxValue : ℕ)
    (choices : List GenChoice) : Option ToySequenceData :=
  (optTraverse (genSample maxSeqLen minSeqLen maxValue) choices).map fun samples =>
    { data := samples.map Prod.fst
      labels := samples.map fun s => s.2.1
      seqlen := samples.map fun s => s.2.2
      batch_id := 0 }

/-- `ToySequenceData.next`: reset the cursor when it equals the dataset
size, slice the three lists from the cursor to
`min (cursor + batchSize) len(data)`, and advance the cursor to that
bound.  Returned as (batch, updated state). -/
def ToySequenceData.next (d : ToySequenceData) (batchSize : ℕ) :
    (List (List (List ℚ)) × List (List ℚ) × List ℕ) × ToySequenceData :=
  let bid := if d.batch_id = d.data.length then 0 else d.batch_id
  let hi := min (bid + batchSize) d.data.length
  ((pySlice d.data bid hi, pySlice d.labels bid hi, pySlice d.seqlen bid hi),
   { d with batch_id := hi })

/-- Run a sequence of `next` calls, keeping only the final state. -/
def runNext (d : ToySequenceData) : List ℕ → ToySequenceData
  | [] => d
  | bs :: rest => runNext (d.next bs).2 rest

/-- The sizes of the data batches returned by `k` successive `next` calls
with a fixed `batchSize`. -/
def batchSizes (d : ToySequenceData) (batchSize : ℕ) : ℕ → List ℕ
  | 0 => []
  | k + 1 => (d.next batchSize).1.1.length :: batchSizes (d.next batchSize).2 batchSize k

/-- `tf.gather` on axis 0 with signed indices: fails on any index outside
`[0, len(flat))`. -/
def tfGather {α : Type} (flat : List α) (idx : List ℤ) : Option (List α) :=
  optTraverse (fun i => if i < 0 then none else flat[i.toNat]?) idx

/-- The flat gather indices built in `dynamicRNN`:
`tf.range(0, batch_size) * seq_max_len + (seqlen - 1)`. -/
def lastIndex (seqMaxLen batchSize : ℕ) (seqlen : List ℤ) : List ℤ :=
  ((List.range batchSize).zip seqlen).map fun p => (p.1 : ℤ) * seqMaxLen + (p.2 - 1)

/-- The output-selection step of `dynamicRNN`: reshape the
`B × seq_max_len × H` outputs to `(B * seq_max_len) × H` (list
flattening) and gather the rows at the computed flat indices. -/
def dynamicRNN_gather {α : Type} (seqMaxLen : ℕ) (outputs : List (List (List α)))
    (seqlen : List ℤ) : Option (List (List α)) :=
  tfGather outputs.flatten (lastIndex seqMaxLen outputs.length seqlen)

/-- The spec's alternative formulation of the extractor: for each row `b`,
index directly into the unflattened data at `outputs[b][seqlen[b] - 1]`. -/
def directExtract {α : Type} (outputs : List (List (List α))) (seqlen : List ℤ) :
    List (List α) :=
  (outputs.zip seqlen).map fun p => p.1.getD (p.2 - 1).toNat []

/-! ### Helper lemmas -/

theorem optTraverse_eq_map {α β : Type} (f : α → Option β) (g : α → β) :
    ∀ l : List α, (∀ a ∈ l, f a = some (g a)) → optTraverse f l = some (l.map g)
  | [], _ => rfl
  | a :: as, h => by
    have ha := h a (List.mem_cons_self a as)
    have hrest := optTraverse_eq_map f g as fun x hx => h x (List.mem_cons_of_mem a hx)
    simp [optTraverse, ha, hrest]

theorem optTraverse_eq_none_iff {α β : Type} (f : α → Option β) :
    ∀ l : List α, (optTraverse f l = none ↔ ∃ a ∈ l, f a = none)
  | [] => by simp [optTraverse]
  | a :: as => by
    have h1 : optTraverse f (a :: as) = none ↔ f a = none ∨ optTraverse f as = none := by
      cases hfa : f a <;> cases hrest : optTraverse f as <;> simp [optTraverse, hfa, hrest]
    rw [h1, optTraverse_eq_none_iff f as]
    constructor
    · rintro (h | ⟨x, hx, hfx⟩)
      exacts [⟨a, List.mem_cons_self a as, h⟩, ⟨x, List.mem_cons_of_mem a hx, hfx⟩]
    · rintro ⟨x, hx, hfx⟩
      rcases List.mem_cons.mp hx with rfl | hx
      exacts [Or.inl hfx, Or.inr ⟨x, hx, hfx⟩]

theorem pySlice_length {α : Type} (l : List α) (a b : ℕ) :
    (pySlice l a b).length = min (b - a) (l.length - a) := by
  simp [pySlice]

theorem pySlice_getElem? {α : Type} (l : List α) (a b k : ℕ) :
    (pySlice l a b)[k]? = if k < b - a then l[a + k]? else none := by
  by_cases hk : k < b - a
  · rw [pySlice, List.getElem?_take_of_lt hk, List.getElem?_drop, if_pos hk]
  · rw [if_neg hk, List.getElem?_eq_none_iff.mpr]
    calc (pySlice l a b).length ≤ b - a := by rw [pySlice_length]; omega
      _ ≤ k := by omega

theorem tfGather_eq_none_iff {α : Type} (flat : List α) (idx : List ℤ) :
    tfGather flat idx = none ↔ ∃ i ∈ idx, i < 0 ∨ (flat.length : ℤ) ≤ i := by
  rw [tfGather, optTraverse_eq_none_iff]
  refine exists_congr fun i => and_congr_right fun _ => ?_
  by_cases hi : i < 0
  · rw [if_pos hi]
    exact iff_of_true rfl (Or.inl hi)
  · simp only [if_neg hi, List.getElem?_eq_none_iff]
    omega

theorem length_flatten_uniform {α : Type} (m : ℕ) :
    ∀ data : List (List α), (∀ r ∈ data, r.length = m) →
      data.flatten.length = data.length * m
  | [], _ => by simp
  | r :: rs, h => by
    have hr := h r (List.mem_cons_self r rs)
    have ih := length_flatten_uniform m rs fun x hx => h x (List.mem_cons_of_mem r hx)
    simp [List.flatten_cons, hr, ih, Nat.succ_mul, Nat.add_comm]

theorem flatten_getElem?_uniform {α : Type} (m : ℕ) :
    ∀ data : List (List α), (∀ r ∈ data, r.length = m) →
      ∀ b j : ℕ, j < m → data.flatten[b * m + j]? = data[b]?.bind fun r => r[j]?
  | [], _, b, j, _ => by simp
  | r :: rs, h, 0, j, hj => by
    have hr := h r (List.mem_cons_self r rs)
    rw [List.flatten_cons, Nat.zero_mul, Nat.zero_add,
      List.getElem?_append_left (by omega : j < r.length)]
    simp
  | r :: rs, h, b + 1, j, hj => by
    have hr := h r (List.mem_cons_self r rs)
    have ih := flatten_getElem?_uniform m rs
      (fun x hx => h x (List.mem_cons_of_mem r hx)) b j hj
    have hle : r.length ≤ (b + 1) * m + j := by
      rw [hr]
      calc m = 1 * m := (Nat.one_mul m).symm
        _ ≤ (b + 1) * m := Nat.mul_le_mul_right m (by omega)
        _ ≤ (b + 1) * m + j := Nat.le_add_right _ _
    rw [List.flatten_cons, List.getElem?_append_right hle]
    have harith : (b + 1) * m + j - r.length = b * m + j := by
      rw [hr, Nat.add_mul, Nat.one_mul]
      omega
    rw [harith, ih]
    simp

theorem lastIndex_getElem? (seqMaxLen batchSize : ℕ) (seqlen : List ℤ) (n : ℕ) :
    (lastIndex seqMaxLen batchSize seqlen)[n]? =
      if n < batchSize then seqlen[n]?.map fun l => (n : ℤ) * seqMaxLen + (l - 1)
      else none := by
  rw [lastIndex, List.getElem?_map, List.zip, List.getElem?_zipWith']
  by_cases hn : n < batchSize
  · rw [List.getElem?_range hn, if_pos hn]
    cases seqlen[n]? <;> simp
  · rw [if_neg hn, List.getElem?_eq_none_iff.mpr (by simpa using Nat.le_of_not_lt hn)]
    simp

theorem mem_lastIndex {seqMaxLen batchSize : ℕ} {seqlen : List ℤ} {i : ℤ}
    (h : i ∈ lastIndex seqMaxLen batchSize seqlen) :
    ∃ (n : ℕ) (l : ℤ), n < batchSize ∧ seqlen[n]? = some l ∧
      i = (n : ℤ) * seqMaxLen + (l - 1) := by
  obtain ⟨k, hk⟩ := List.mem_iff_getElem?.mp h
  rw [lastIndex_getElem?] at hk
  by_cases hkB : k < batchSize
  · rw [if_pos hkB] at hk
    obtain ⟨l, hl, hfl⟩ := Option.map_eq_some'.mp hk
    exact ⟨k, l, hkB, hl, hfl.symm⟩
  · rw [if_neg hkB] at hk
    exact absurd hk (Option.noConfusion)

theorem flatten_row_getElem? {α : Type} (maxLen : ℕ) (data : List (List (List α)))
    (hrow : ∀ r ∈ data, r.length = maxLen) (n : ℕ) (l : ℤ) (r : List (List α))
    (hn : data[n]? = some r) (h1 : 1 ≤ l) (hm : l ≤ maxLen) :
    data.flatten[((n : ℤ) * maxLen + (l - 1)).toNat]? = some (r.getD (l - 1).toNat []) := by
  have hrlen : r.length = maxLen := hrow r (List.getElem?_mem hn)
  have hj : (l - 1).toNat < maxLen := by omega
  have hcast : ((n : ℤ) * maxLen + (l - 1)) = ((n * maxLen + (l - 1).toNat : ℕ) : ℤ) := by
    have h2 : (((l - 1).toNat : ℤ)) = l - 1 := by omega
    push_cast
    rw [h2]
  have hlt : (l - 1).toNat < r.length := by omega
  rw [hcast, Int.toNat_ofNat, flatten_getElem?_uniform maxLen data hrow n (l - 1).toNat hj,
    hn, Option.some_bind, List.getElem?_eq_getElem hlt, List.getD_eq_getElem?_getD,
    List.getElem?_eq_getElem hlt]
  rfl

/-- Key characterization: on a well-formed batch (uniform row length
`maxLen`, matching `seqlen` length, every true length in `[1, maxLen]`),
the flat-index gather of `dynamicRNN` succeeds and agrees with direct
per-row indexing. -/
theorem gather_valid {α : Type} (maxLen : ℕ) (data : List (List (List α))) (seqlen : List ℤ)
    (hlen : seqlen.length = data.length)
    (hrow : ∀ r ∈ data, r.length = maxLen)
    (hval : ∀ l ∈ seqlen, 1 ≤ l ∧ l ≤ (maxLen : ℤ)) :
    dynamicRNN_gather maxLen data seqlen = some (directExtract data seqlen) := by
  rw [dynamicRNN_gather, tfGather]
  have hstep : ∀ i ∈ lastIndex maxLen data.length seqlen,
      (if i < 0 then none else data.flatten[i.toNat]?) =
        some (data.flatten.getD i.toNat []) := by
    intro i hi
    obtain ⟨n, l, hnB, hl, rfl⟩ := mem_lastIndex hi
    obtain ⟨h1, hm⟩ := hval l (List.getElem?_mem hl)
    obtain ⟨r, hr⟩ : ∃ r, data[n]? = some r := ⟨data.get ⟨n, hnB⟩, by simp⟩
    have hflat := flatten_row_getElem? maxLen data hrow n l r hr h1 hm
    have hpos : (0 : ℤ) ≤ (n : ℤ) * maxLen := by positivity
    rw [if_neg (by omega : ¬ (n : ℤ) * maxLen + (l - 1) < 0),
      List.getD_eq_getElem?_getD, hflat]
    rfl
  rw [optTraverse_eq_map _ _ _ hstep]
  refine congrArg some (List.ext_getElem? fun n => ?_)
  rw [List.getElem?_map, lastIndex_getElem?, directExtract, List.getElem?_map,
    List.zip, List.getElem?_zipWith']
  by_cases hn : n < data.length
  · obtain ⟨r, hr⟩ : ∃ r, data[n]? = some r := ⟨data.get ⟨n, hn⟩, by simp⟩
    obtain ⟨l, hl⟩ : ∃ l, seqlen[n]? = some l :=
      ⟨seqlen.get ⟨n, by omega⟩, by simp⟩
    obtain ⟨h1, hm⟩ := hval l (List.getElem?_mem hl)
    have hflat := flatten_row_getElem? maxLen data hrow n l r hr h1 hm
    rw [if_pos hn, hr, hl, Option.map_some', Option.map_some', Option.map_some',
      Option.some_bind, Option.map_some', List.getD_eq_getElem?_getD, hflat]
    rfl
  · rw [if_neg hn, List.getElem?_eq_none_iff.mpr (by omega : data.length ≤ n)]
    simp

theorem directExtract_getElem? {α : Type} (data : List (List (List α))) (seqlen : List ℤ)
    (b : ℕ) (r : List (List α)) (l : ℤ) (hb : data[b]? = some r) (hl : seqlen[b]? = some l) :
    (directExtract data seqlen)[b]? = some (r.getD (l - 1).toNat []) := by
  rw [directExtract, List.getElem?_map,
    List.getElem?_zip_eq_some.mpr (show data[b]? = some (r, l).1 ∧ seqlen[b]? = some (r, l).2
      from ⟨hb, hl⟩)]
  rfl

/-! ### Claim theorems -/

/-- C1: for every batch of `B` padded sequences of `maxLen` timesteps with
feature width `H` and a parallel list of true lengths all in `[1, maxLen]`,
the last-valid-timestep extractor of `dynamicRNN` succeeds and returns a
`B × H` collection whose row `b` is timestep `trueLengths[b] - 1` of
sequence `b`; in the concrete scenario `maxLen = 5`, `H = 1`, values
`[[10,11,12,13,14],[20,21,22,23,24]]`, `trueLengths = [3,1]` it returns
`[12, 20]`, and `trueLengths = [5,1]` selects the last and the first
timestep. -/
theorem claim1_last_valid_timestep_extractor {α : Type} (maxLen H : ℕ)
    (data : List (List (List α))) (seqlen : List ℤ)
    (hlen : seqlen.length = data.length)
    (hrow : ∀ r ∈ data, r.length = maxLen)
    (hwidth : ∀ r ∈ data, ∀ v ∈ r, v.length = H)
    (hval : ∀ l ∈ seqlen, 1 ≤ l ∧ l ≤ (maxLen : ℤ)) :
    (∃ out, dynamicRNN_gather maxLen data seqlen = some out ∧
      out.length = data.length ∧
      (∀ v ∈ out, v.length = H) ∧
      ∀ (b : ℕ) (r : List (List α)) (l : ℤ), data[b]? = some r → seqlen[b]? = some l →
        out[b]? = r[(l - 1).toNat]?) ∧
    dynamicRNN_gather 5 [[[10], [11], [12], [13], [14]], [[20], [21], [22], [23], [24]]]
      ([3, 1] : List ℤ) = some [[12], [20]] ∧
    dynamicRNN_gather 5 [[[10], [11], [12], [13], [14]], [[20], [21], [22], [23], [24]]]
      ([5, 1] : List ℤ) = some [[14], [20]] := by
  refine ⟨⟨directExtract data seqlen, gather_valid maxLen data seqlen hlen hrow hval,
    ?_, ?_, ?_⟩, by decide, by decide⟩
  · simp [directExtract, hlen]
  · intro v hv
    obtain ⟨p, hp, rfl⟩ := List.mem_map.mp hv
    obtain ⟨i, hip⟩ := List.mem_iff_getElem?.mp hp
    obtain ⟨hd, hs⟩ := List.getElem?_zip_eq_some.mp hip
    obtain ⟨h1, hm⟩ := hval p.2 (List.getElem?_mem hs)
    have hlen1 : p.1.length = maxLen := hrow p.1 (List.getElem?_mem hd)
    have hlt : (p.2 - 1).toNat < p.1.length := by omega
    have hgd : p.1.getD (p.2 - 1).toNat [] = p.1.get ⟨(p.2 - 1).toNat, hlt⟩ := by
      rw [List.getD_eq_getElem?_getD, List.getElem?_eq_getElem hlt]
      rfl
    rw [hgd]
    exact hwidth p.1 (List.getElem?_mem hd) _ (List.get_mem p.1 _ hlt)
  · intro b r l hb hl
    obtain ⟨h1, hm⟩ := hval l (List.getElem?_mem hl)
    have hlen1 : r.length = maxLen := hrow r (List.getElem?_mem hb)
    have hlt : (l - 1).toNat < r.length := by omega
    rw [directExtract_getElem? data seqlen b r l hb hl,
      List.getElem?_eq_getElem hlt, List.getD_eq_getElem?_getD,
      List.getElem?_eq_getElem hlt]
    rfl

theorem claim1_last_valid_timestep_extractor_witness :
    dynamicRNN_gather 5 [[[10], [11], [12], [13], [14]], [[20], [21], [22], [23], [24]]]
      ([3, 1] : List ℤ) = some [[12], [20]] :=
  (claim1_last_valid_timestep_extractor 5 1
    [[[10], [11], [12], [13], [14]], [[20], [21], [22], [23], [24]]] ([3, 1] : List ℤ)
    (by decide) (by decide) (by decide) (by decide)).2.1

/-- C4: on every well-formed batch (uniform `maxLen` timesteps, matching
lengths, true lengths in `[1, maxLen]`), gathering row `b` at flat offset
`b * maxLen + (trueLengths[b] - 1)` from the flattened data coincides with
directly indexing the unflattened data as `data[b][trueLengths[b] - 1]`:
the two formulations define the same extractor. -/
theorem claim4_flat_gather_refines_direct_indexing {α : Type} (maxLen : ℕ)
    (data : List (List (List α))) (seqlen : List ℤ)
    (hlen : seqlen.length = data.length)
    (hrow : ∀ r ∈ data, r.length = maxLen)
    (hval : ∀ l ∈ seqlen, 1 ≤ l ∧ l ≤ (maxLen : ℤ)) :
    dynamicRNN_gather maxLen data seqlen = some (directExtract data seqlen) :=
  gather_valid maxLen data seqlen hlen hrow hval

theorem claim4_flat_gather_refines_direct_indexing_witness :
    dynamicRNN_gather 5 [[[10], [11], [12], [13], [14]], [[20], [21], [22], [23], [24]]]
      ([4, 2] : List ℤ) =
      some (directExtract [[[10], [11], [12], [13], [14]], [[20], [21], [22], [23], [24]]]
        ([4, 2] : List ℤ)) :=
  claim4_flat_gather_refines_direct_indexing 5
    [[[10], [11], [12], [13], [14]], [[20], [21], [22], [23], [24]]] ([4, 2] : List ℤ)
    (by decide) (by decide) (by decide)

/-- C5 counterexample: the true length `0` of the second sequence lies
outside `[1, 5]`, yet the extractor does not fail: the flat index
`1 * 5 + (0 - 1) = 4` stays inside the flattened batch and the gather
silently returns timestep `4` of the FIRST sequence (`14`). -/
theorem claim5_counterexample :
    ((0 : ℤ) < 1 ∨ (5 : ℤ) < 0) ∧
    dynamicRNN_gather 5 [[[10], [11], [12], [13], [14]], [[20], [21], [22], [23], [24]]]
      ([3, 0] : List ℤ) = some [[12], [14]] := by
  exact ⟨Or.inl (by decide), by decide⟩

/-- C5 amended: on a batch of `B` uniform rows, the extractor fails with an
index error exactly when some computed flat index
`b * maxLen + (trueLengths[b] - 1)` falls outside `[0, B * maxLen)`; a true
length outside `[1, maxLen]` whose flat index stays inside that range is
accepted silently, reading a timestep of an adjacent sequence. -/
theorem claim5_gather_failure_characterization {α : Type} (maxLen : ℕ)
    (data : List (List (List α))) (seqlen : List ℤ)
    (hlen : seqlen.length = data.length)
    (hrow : ∀ r ∈ data, r.length = maxLen) :
    dynamicRNN_gather maxLen data seqlen = none ↔
      ∃ (b : ℕ) (l : ℤ), seqlen[b]? = some l ∧
        ((b : ℤ) * maxLen + (l - 1) < 0 ∨
          ((data.length * maxLen : ℕ) : ℤ) ≤ (b : ℤ) * maxLen + (l - 1)) := by
  rw [dynamicRNN_gather, tfGather_eq_none_iff,
    length_flatten_uniform maxLen data hrow]
  constructor
  · rintro ⟨i, hi, hout⟩
    obtain ⟨n, l, hnB, hl, rfl⟩ := mem_lastIndex hi
    exact ⟨n, l, hl, hout⟩
  · rintro ⟨b, l, hl, hout⟩
    have hb : b < data.length := by
      have h2 : b < seqlen.length := by
        by_contra hcon
        rw [List.getElem?_eq_none_iff.mpr (by omega)] at hl
        exact Option.noConfusion hl
      omega
    refine ⟨(b : ℤ) * maxLen + (l - 1), ?_, hout⟩
    rw [lastIndex]
    refine List.mem_map.mpr ⟨(b, l), ?_, rfl⟩
    exact List.getElem?_mem (List.getElem?_zip_eq_some.mpr ⟨List.getElem?_range hb, hl⟩)

theorem claim5_gather_failure_characterization_witness :
    dynamicRNN_gather 5 [[[10], [11], [12], [13], [14]], [[20], [21], [22], [23], [24]]]
      ([3, 7] : List ℤ) = none :=
  (claim5_gather_failure_characterization 5
    [[[10], [11], [12], [13], [14]], [[20], [21], [22], [23], [24]]] ([3, 7] : List ℤ)
    (by decide) (by decide)).mpr ⟨1, 7, by decide, by decide⟩

theorem next_frame (d : ToySequenceData) (bs : ℕ) :
    (d.next bs).2.data = d.data ∧ (d.next bs).2.labels = d.labels ∧
    (d.next bs).2.seqlen = d.seqlen ∧ (d.next bs).2.batch_id ≤ d.data.length := by
  refine ⟨rfl, rfl, rfl, ?_⟩
  simp [ToySequenceData.next]

theorem next_zero (d : ToySequenceData) (h : d.batch_id < d.data.length) :
    d.next 0 = (([], [], []), d) := by
  obtain ⟨dt, lb, sl, bi⟩ := d
  simp only at h
  have hne : bi ≠ dt.length := Nat.ne_of_lt h
  have hmin : min (bi + 0) dt.length = bi := by omega
  simp [ToySequenceData.next, hne, hmin, pySlice, Nat.sub_self]
  omega

/-- C2: each `next` call first resets the cursor to `0` if it equals `N`,
then returns the contiguous slices of up to `batchSize` items of the three
parallel lists starting at the cursor (so the returned batch has exactly
`min batchSize (N - cursor)` items, the `k`-th being item `cursor + k`,
with no wrap-around concatenation), and sets the cursor to
`min (cursor + batchSize) N`; concretely, with `N = 10` and
`batchSize = 4` four successive calls return batches of sizes
`4, 4, 2, 4`. -/
theorem claim2_cyclic_batch_reader (d : ToySequenceData) (batchSize N p : ℕ)
    (hN : N = d.data.length)
    (hp : p = if d.batch_id = N then 0 else d.batch_id)
    (hbid : d.batch_id ≤ N)
    (hlab : d.labels.length = N) (hseq : d.seqlen.length = N) :
    ((d.next batchSize).2.batch_id = min (p + batchSize) N ∧
      (d.next batchSize).2.data = d.data ∧
      (d.next batchSize).1.1.length = min batchSize (N - p) ∧
      (d.next batchSize).1.2.1.length = min batchSize (N - p) ∧
      (d.next batchSize).1.2.2.length = min batchSize (N - p) ∧
      (∀ k : ℕ, (d.next batchSize).1.1[k]? =
        if k < min batchSize (N - p) then d.data[p + k]? else none) ∧
      (∀ k : ℕ, (d.next batchSize).1.2.1[k]? =
        if k < min batchSize (N - p) then d.labels[p + k]? else none) ∧
      (∀ k : ℕ, (d.next batchSize).1.2.2[k]? =
        if k < min batchSize (N - p) then d.seqlen[p + k]? else none)) ∧
    batchSizes ⟨List.replicate 10 [], List.replicate 10 [], List.range 10, 0⟩ 4 4 =
      [4, 4, 2, 4] := by
  subst hN
  have hple : p ≤ d.data.length := by rw [hp]; split <;> omega
  have hnext : d.next batchSize =
      ((pySlice d.data p (min (p + batchSize) d.data.length),
        pySlice d.labels p (min (p + batchSize) d.data.length),
        pySlice d.seqlen p (min (p + batchSize) d.data.length)),
       { d with batch_id := min (p + batchSize) d.data.length }) := by
    rw [ToySequenceData.next, ← hp]
  have hcond : min (p + batchSize) d.data.length - p =
      min batchSize (d.data.length - p) := by omega
  refine ⟨⟨by rw [hnext], by rw [hnext], ?_, ?_, ?_, ?_, ?_, ?_⟩, by decide⟩
  · rw [hnext]; rw [pySlice_length]; omega
  · rw [hnext]; rw [pySlice_length, hlab]; omega
  · rw [hnext]; rw [pySlice_length, hseq]; omega
  · intro k; rw [hnext]; rw [pySlice_getElem?, hcond]
  · intro k; rw [hnext]; rw [pySlice_getElem?, hcond]
  · intro k; rw [hnext]; rw [pySlice_getElem?, hcond]

theorem claim2_cyclic_batch_reader_witness :
    batchSizes ⟨List.replicate 10 [], List.replicate 10 [], List.range 10, 0⟩ 4 4 =
      [4, 4, 2, 4] :=
  (claim2_cyclic_batch_reader
    ⟨List.replicate 10 [], List.replicate 10 [], List.range 10, 0⟩ 4 10 0
    (by decide) (by decide) (by decide) (by decide) (by decide)).2

/-- C9: any sequence of batch-reader calls leaves the stored `data`,
`labels` and `seqlen` collections unchanged — only the cursor is mutated —
and after any nonempty sequence of calls the cursor lies in `[0, N]`
(it is a natural number, so `0 ≤ cursor` is implicit). -/
theorem claim9_reader_frame (d : ToySequenceData) (calls : List ℕ) :
    (runNext d calls).data = d.data ∧ (runNext d calls).labels = d.labels ∧
    (runNext d calls).seqlen = d.seqlen ∧
    (calls ≠ [] → (runNext d calls).batch_id ≤ d.data.length) := by
  induction calls generalizing d with
  | nil => exact ⟨rfl, rfl, rfl, fun h => absurd rfl h⟩
  | cons bs rest ih =>
    obtain ⟨hd1, hl1, hs1, hb1⟩ := next_frame d bs
    obtain ⟨ihd, ihl, ihs, ihb⟩ := ih (d.next bs).2
    refine ⟨by rw [runNext, ihd, hd1], by rw [runNext, ihl, hl1],
      by rw [runNext, ihs, hs1], fun _ => ?_⟩
    by_cases hrest : rest = []
    · subst hrest
      rw [runNext, runNext]
      exact hd1 ▸ hb1
    · have := ihb hrest
      rw [hd1] at this
      rw [runNext]
      exact this

theorem claim9_reader_frame_witness :
    (runNext ⟨List.replicate 10 [], List.replicate 10 [], List.range 10, 0⟩ [4, 4]).batch_id
      ≤ (⟨List.replicate 10 [], List.replicate 10 [], List.range 10, 0⟩ :
          ToySequenceData).data.length :=
  (claim9_reader_frame ⟨List.replicate 10 [], List.replicate 10 [], List.range 10, 0⟩
    [4, 4]).2.2.2 (by decide)

/-- C10: with the cursor strictly inside `[0, N)`, a `next` call with
`batchSize = 0` returns three empty slices and leaves the state (hence the
cursor) unchanged, and consequently any number of repeated zero-size calls
leaves the state unchanged — the cursor never advances and never wraps. -/
theorem claim10_zero_batch_is_noop (d : ToySequenceData) (h : d.batch_id < d.data.length) :
    (d.next 0).1 = ([], [], []) ∧ (d.next 0).2 = d ∧
      ∀ k : ℕ, runNext d (List.replicate k 0) = d := by
  have hz := next_zero d h
  refine ⟨by rw [hz], by rw [hz], ?_⟩
  intro k
  induction k with
  | zero => rfl
  | succ n ih =>
    rw [List.replicate_succ, runNext, hz]
    exact ih

theorem claim10_zero_batch_is_noop_witness :
    ((⟨List.replicate 10 [], List.replicate 10 [], List.range 10, 2⟩ :
        ToySequenceData).next 0).1 = ([], [], []) ∧
    ((⟨List.replicate 10 [], List.replicate 10 [], List.range 10, 2⟩ :
        ToySequenceData).next 0).2 =
      ⟨List.replicate 10 [], List.replicate 10 [], List.range 10, 2⟩ :=
  ⟨(claim10_zero_batch_is_noop
      ⟨List.replicate 10 [], List.replicate 10 [], List.range 10, 2⟩ (by decide)).1,
   (claim10_zero_batch_is_noop
      ⟨List.replicate 10 [], List.replicate 10 [], List.range 10, 2⟩ (by decide)).2.1⟩

/-- The sample one loop iteration of the generator produces when no draw
raises: the padded sequence, the one-hot label, and the recorded length. -/
def genSampleOk (maxSeqLen maxValue : ℕ) (c : GenChoice) : List (List ℚ) × List ℚ × ℕ :=
  if c.isLinear then
    ((List.range c.trueLen).map
        (fun j : ℕ => [(((c.randStart + j : ℕ) : ℚ)) / (maxValue : ℚ)])
       ++ List.replicate (maxSeqLen - c.trueLen) [(0 : ℚ)], [1, 0], c.trueLen)
  else
    (c.randVals.map (fun v : ℕ => [((v : ℚ)) / (maxValue : ℚ)])
       ++ List.replicate (maxSeqLen - c.trueLen) [(0 : ℚ)], [0, 1], c.trueLen)

theorem genSample_eq_ok (maxSeqLen minSeqLen maxValue : ℕ) (c : GenChoice)
    (hms : minSeqLen ≤ maxSeqLen) (hlin : c.isLinear = true → c.trueLen ≤ maxValue) :
    genSample maxSeqLen minSeqLen maxValue c = some (genSampleOk maxSeqLen maxValue c) := by
  rw [genSample, genSampleOk, if_neg (by omega : ¬ maxSeqLen < minSeqLen)]
  by_cases hc : c.isLinear = true
  · rw [if_pos hc, if_pos hc, if_neg (by have := hlin hc; omega : ¬ maxValue < c.trueLen)]
  · rw [if_neg hc, if_neg hc]

theorem init_eq_ok (maxSeqLen minSeqLen maxValue : ℕ) (choices : List GenChoice)
    (hms : minSeqLen ≤ maxSeqLen)
    (hlin : ∀ c ∈ choices, c.isLinear = true → c.trueLen ≤ maxValue) :
    ToySequenceData.init maxSeqLen minSeqLen maxValue choices =
      some { data := choices.map fun c => (genSampleOk maxSeqLen maxValue c).1
             labels := choices.map fun c => (genSampleOk maxSeqLen maxValue c).2.1
             seqlen := choices.map fun c => (genSampleOk maxSeqLen maxValue c).2.2
             batch_id := 0 } := by
  rw [ToySequenceData.init, optTraverse_eq_map _ (genSampleOk maxSeqLen maxValue) _
    (fun c hc => genSample_eq_ok maxSeqLen minSeqLen maxValue c hms (hlin c hc))]
  simp [List.map_map, Function.comp_def]

theorem genSampleOk_seqlen (maxSeqLen maxValue : ℕ) (c : GenChoice) :
    (genSampleOk maxSeqLen maxValue c).2.2 = c.trueLen := by
  by_cases hc : c.isLinear = true
  · rw [genSampleOk, if_pos hc]
  · rw [genSampleOk, if_neg hc]

theorem genSampleOk_labels (maxSeqLen maxValue : ℕ) (c : GenChoice) :
    (genSampleOk maxSeqLen maxValue c).2.1 =
      if c.isLinear = true then [(1 : ℚ), 0] else [(0 : ℚ), 1] := by
  by_cases hc : c.isLinear = true
  · rw [genSampleOk, if_pos hc, if_pos hc]
  · rw [genSampleOk, if_neg hc, if_neg hc]

theorem genSampleOk_data_length (maxSeqLen maxValue : ℕ) (c : GenChoice)
    (hlen : c.trueLen ≤ maxSeqLen)
    (hrand : c.isLinear = false → c.randVals.length = c.trueLen) :
    (genSampleOk maxSeqLen maxValue c).1.length = maxSeqLen := by
  by_cases hc : c.isLinear = true
  · rw [genSampleOk, if_pos hc]
    simp only [List.length_append, List.length_map, List.length_range, List.length_replicate]
    omega
  · rw [genSampleOk, if_neg hc]
    have hc2 : c.isLinear = false := by revert hc; cases c.isLinear <;> simp
    simp only [List.length_append, List.length_map, List.length_replicate, hrand hc2]
    omega

theorem genSampleOk_padding (maxSeqLen maxValue : ℕ) (c : GenChoice) (j : ℕ)
    (hrand : c.isLinear = false → c.randVals.length = c.trueLen)
    (hj1 : c.trueLen ≤ j) (hj2 : j < maxSeqLen) :
    (genSampleOk maxSeqLen maxValue c).1[j]? = some [(0 : ℚ)] := by
  have hrep : ∀ body : List (List ℚ), body.length = c.trueLen →
      (body ++ List.replicate (maxSeqLen - c.trueLen) [(0 : ℚ)])[j]? = some [(0 : ℚ)] := by
    intro body hbody
    rw [List.getElem?_append_right (by omega : body.length ≤ j), List.getElem?_replicate,
      if_pos (by omega : j - body.length < maxSeqLen - c.trueLen)]
  by_cases hc : c.isLinear = true
  · rw [genSampleOk, if_pos hc]
    exact hrep _ (by simp)
  · have hc2 : c.isLinear = false := by revert hc; cases c.isLinear <;> simp
    rw [genSampleOk, if_neg hc]
    exact hrep _ (by simp [hrand hc2])

theorem genSampleOk_linear_values (maxSeqLen maxValue : ℕ) (c : GenChoice)
    (hc : c.isLinear = true) (j : ℕ) (hj : j < c.trueLen) :
    (genSampleOk maxSeqLen maxValue c).1[j]? =
      some [(((c.randStart + j : ℕ) : ℚ)) / (maxValue : ℚ)] := by
  rw [genSampleOk, if_pos hc,
    List.getElem?_append_left (show j < ((List.range c.trueLen).map
      (fun j : ℕ => [(((c.randStart + j : ℕ) : ℚ)) / (maxValue : ℚ)])).length by
        rw [List.length_map, List.length_range]; omega),
    List.getElem?_map, List.getElem?_range hj]
  rfl

/-- C3: a dataset generated from valid parameters (`minLen ≤ maxLen`,
`maxLen ≤ maxValue`) and in-range draws is well-formed: the three parallel
lists have length `N = choices.length`, every recorded length lies in
`[minLen, maxLen]`, every sequence has exactly `maxLen` timesteps, and
every timestep at an index `≥ trueLengths[i]` is the zero vector. -/
theorem claim3_generated_dataset_wellformed (maxLen minLen maxValue : ℕ)
    (choices : List GenChoice)
    (hml : minLen ≤ maxLen) (hmv : maxLen ≤ maxValue)
    (hv : ∀ c ∈ choices, c.Valid minLen maxLen maxValue) :
    ∃ d, ToySequenceData.init maxLen minLen maxValue choices = some d ∧
      d.data.length = choices.length ∧ d.labels.length = choices.length ∧
      d.seqlen.length = choices.length ∧
      (∀ l ∈ d.seqlen, minLen ≤ l ∧ l ≤ maxLen) ∧
      (∀ s ∈ d.data, s.length = maxLen) ∧
      (∀ (i j : ℕ) (s : List (List ℚ)) (l : ℕ),
        d.data[i]? = some s → d.seqlen[i]? = some l → l ≤ j → j < maxLen →
          s[j]? = some [(0 : ℚ)]) := by
  have hlin : ∀ c ∈ choices, c.isLinear = true → c.trueLen ≤ maxValue := by
    intro c hc hcl
    obtain ⟨_, h2, h3, _⟩ := hv c hc
    have := h3 hcl
    omega
  refine ⟨_, init_eq_ok maxLen minLen maxValue choices hml hlin, by simp, by simp, by simp,
    ?_, ?_, ?_⟩
  · intro l hl
    obtain ⟨c, hc, hcl⟩ := List.mem_map.mp hl
    obtain ⟨h1, h2, _, _⟩ := hv c hc
    rw [genSampleOk_seqlen] at hcl
    omega
  · intro s hs
    obtain ⟨c, hc, hcs⟩ := List.mem_map.mp hs
    obtain ⟨_, h2, _, h4⟩ := hv c hc
    rw [← hcs]
    exact genSampleOk_data_length maxLen maxValue c h2 fun hcf => (h4 hcf).1
  · intro i j s l hs hl hlj hjm
    simp only [List.getElem?_map] at hs hl
    obtain ⟨c, hc, hcs⟩ := Option.map_eq_some'.mp hs
    obtain ⟨c2, hc2, hcl⟩ := Option.map_eq_some'.mp hl
    have hcc : c2 = c := by rw [hc] at hc2; exact (Option.some.inj hc2).symm
    subst hcc
    rw [genSampleOk_seqlen] at hcl
    rw [← hcs]
    exact genSampleOk_padding maxLen maxValue c2 j
      (fun hcf => ((hv c2 (List.getElem?_mem hc)).2.2.2 hcf).1) (by omega) hjm

theorem claim3_generated_dataset_wellformed_witness :
    ∃ d, ToySequenceData.init 3 2 10 [⟨2, true, 1, []⟩, ⟨3, false, 0, [5, 0, 7]⟩] = some d :=
  Exists.imp (fun _ hd => hd.1)
    (claim3_generated_dataset_wellformed 3 2 10 [⟨2, true, 1, []⟩, ⟨3, false, 0, [5, 0, 7]⟩]
      (by decide) (by decide) (by decide))

/-- C6 counterexample: the parameters `maxValue = 3 < 5 = maxLen` are
invalid in the claim's sense, yet with draws that take the random branch
(true length `2`, values `[1, 2]` — all in the ranges `random` can
actually produce here) the generator raises nothing and returns a
dataset. -/
theorem claim6_counterexample :
    3 < 5 ∧ GenChoice.Valid 1 5 3 ⟨2, false, 0, [1, 2]⟩ ∧
      (ToySequenceData.init 5 1 3 [⟨2, false, 0, [1, 2]⟩]).isSome = true := by
  decide

/-- C6 amended: the generator fails fast only where `random.randint` hits
an empty range: `minLen > maxLen` makes the very first length draw (hence
every invocation with at least one sample) raise, and `maxValue < maxLen`
makes an invocation raise exactly on a sample whose linear branch drew
`trueLen > maxValue`; an invocation whose draws avoid that case returns a
dataset normally. -/
theorem claim6_generator_invalid_params (maxSeqLen minSeqLen maxValue : ℕ)
    (choices : List GenChoice) :
    (maxSeqLen < minSeqLen → choices ≠ [] →
      ToySequenceData.init maxSeqLen minSeqLen maxValue choices = none) ∧
    ((∃ c ∈ choices, c.isLinear = true ∧ maxValue < c.trueLen) →
      ToySequenceData.init maxSeqLen minSeqLen maxValue choices = none) ∧
    (minSeqLen ≤ maxSeqLen →
      (∀ c ∈ choices, c.isLinear = true → c.trueLen ≤ maxValue) →
      ∃ d, ToySequenceData.init maxSeqLen minSeqLen maxValue choices = some d) := by
  have hnone : ∀ c ∈ choices, genSample maxSeqLen minSeqLen maxValue c = none →
      ToySequenceData.init maxSeqLen minSeqLen maxValue choices = none := by
    intro c hc hcnone
    rw [ToySequenceData.init, Option.map_eq_none',
      optTraverse_eq_none_iff]
    exact ⟨c, hc, hcnone⟩
  refine ⟨?_, ?_, ?_⟩
  · intro hlt hne
    obtain ⟨c, rest, rfl⟩ := List.exists_cons_of_ne_nil hne
    refine hnone c (List.mem_cons_self c rest) ?_
    rw [genSample, if_pos hlt]
  · rintro ⟨c, hc, hcl, hgt⟩
    refine hnone c hc ?_
    simp [genSample, hcl, hgt]
  · intro hms hok
    exact ⟨_, init_eq_ok maxSeqLen minSeqLen maxValue choices hms hok⟩

theorem claim6_generator_invalid_params_witness :
    ToySequenceData.init 5 6 1000 [⟨3, false, 0, []⟩] = none ∧
      ToySequenceData.init 5 1 3 [⟨4, true, 0, []⟩] = none ∧
      ∃ d, ToySequenceData.init 5 1 3 [⟨2, false, 0, [1, 2]⟩] = some d :=
  ⟨(claim6_generator_invalid_params 5 6 1000 [⟨3, false, 0, []⟩]).1 (by decide)
      (by simp),
   (claim6_generator_invalid_params 5 1 3 [⟨4, true, 0, []⟩]).2.1
      ⟨⟨4, true, 0, []⟩, List.mem_cons_self _ _, rfl, by decide⟩,
   (claim6_generator_invalid_params 5 1 3 [⟨2, false, 0, [1, 2]⟩]).2.2
      (by decide) (by decide)⟩

/-- C7: in a dataset generated from valid parameters and in-range draws,
every sample labelled with the "linear" class (`[1, 0]`) carries, in its
first `trueLengths[i]` timesteps, the values
`(start + j) / maxValue` for some start with `start + trueLen ≤ maxValue`:
a strictly increasing arithmetic progression of common step
`1 / maxValue`. -/
theorem claim7_linear_class_values (maxLen minLen maxValue : ℕ)
    (choices : List GenChoice)
    (hml : minLen ≤ maxLen) (hmv : maxLen ≤ maxValue) (hpos : 0 < maxValue)
    (hv : ∀ c ∈ choices, c.Valid minLen maxLen maxValue) :
    ∃ d, ToySequenceData.init maxLen minLen maxValue choices = some d ∧
      ∀ (i : ℕ) (s : List (List ℚ)) (l : ℕ),
        d.data[i]? = some s → d.seqlen[i]? = some l → d.labels[i]? = some [1, 0] →
        ∃ start : ℕ, start + l ≤ maxValue ∧
          (∀ j : ℕ, j < l → s[j]? = some [(((start + j : ℕ) : ℚ)) / (maxValue : ℚ)]) ∧
          (∀ (j : ℕ) (x y : ℚ), j + 1 < l → s[j]? = some [x] → s[j + 1]? = some [y] →
            y - x = 1 / (maxValue : ℚ) ∧ x < y) := by
  have hlin : ∀ c ∈ choices, c.isLinear = true → c.trueLen ≤ maxValue := by
    intro c hc hcl
    have := (hv c hc).2.2.1 hcl
    omega
  refine ⟨_, init_eq_ok maxLen minLen maxValue choices hml hlin, ?_⟩
  intro i s l hs hl hlab
  simp only [List.getElem?_map] at hs hl hlab
  obtain ⟨c, hc, hcs⟩ := Option.map_eq_some'.mp hs
  obtain ⟨c2, hc2, hcl⟩ := Option.map_eq_some'.mp hl
  obtain ⟨c3, hc3, hclab⟩ := Option.map_eq_some'.mp hlab
  have hcc2 : c2 = c := by rw [hc] at hc2; exact (Option.some.inj hc2).symm
  have hcc3 : c3 = c := by rw [hc] at hc3; exact (Option.some.inj hc3).symm
  rw [hcc2] at hcl
  rw [hcc3] at hclab
  have hbranch : c.isLinear = true := by
    by_contra hfalse
    rw [genSampleOk_labels, if_neg hfalse] at hclab
    exact absurd hclab (by decide)
  rw [genSampleOk_seqlen] at hcl
  subst hcl
  refine ⟨c.randStart, (hv c (List.getElem?_mem hc)).2.2.1 hbranch, ?_, ?_⟩
  · intro j hj
    rw [← hcs]
    exact genSampleOk_linear_values maxLen maxValue c hbranch j hj
  · intro j x y hj hx hy
    rw [← hcs, genSampleOk_linear_values maxLen maxValue c hbranch j (by omega)] at hx
    rw [← hcs, genSampleOk_linear_values maxLen maxValue c hbranch (j + 1) (by omega)] at hy
    have hxval : x = (((c.randStart + j : ℕ) : ℚ)) / (maxValue : ℚ) := by
      injection hx with h
      injection h with h1 _
      exact h1.symm
    have hyval : y = (((c.randStart + (j + 1) : ℕ) : ℚ)) / (maxValue : ℚ) := by
      injection hy with h
      injection h with h1 _
      exact h1.symm
    have hq : (0 : ℚ) < (maxValue : ℚ) := by exact_mod_cast hpos
    subst hxval
    subst hyval
    constructor
    · rw [div_sub_div_same]
      congr 1
      push_cast
      ring
    · rw [div_lt_div_iff_of_pos_right hq]
      exact_mod_cast (by omega : c.randStart + j < c.randStart + (j + 1))

theorem claim7_linear_class_values_witness :
    ∃ d, ToySequenceData.init 3 2 10 [⟨2, true, 1, []⟩, ⟨3, false, 0, [5, 0, 7]⟩] = some d :=
  Exists.imp (fun _ hd => hd.1)
    (claim7_linear_class_values 3 2 10 [⟨2, true, 1, []⟩, ⟨3, false, 0, [5, 0, 7]⟩]
      (by decide) (by decide) (by decide) (by decide))

/-- C8: in a dataset generated from valid parameters and in-range draws,
every label is one-hot over exactly 2 classes, and (with the random draws
injected) the class deterministically matches the branch taken: the linear
branch yields `[1, 0]` and the random branch `[0, 1]`. -/
theorem claim8_one_hot_and_branch (maxLen minLen maxValue : ℕ)
    (choices : List GenChoice)
    (hml : minLen ≤ maxLen) (hmv : maxLen ≤ maxValue)
    (hv : ∀ c ∈ choices, c.Valid minLen maxLen maxValue) :
    ∃ d, ToySequenceData.init maxLen minLen maxValue choices = some d ∧
      (∀ lab ∈ d.labels, lab.length = 2 ∧ (lab = [(1 : ℚ), 0] ∨ lab = [(0 : ℚ), 1])) ∧
      ∀ (i : ℕ) (c : GenChoice), choices[i]? = some c →
        d.labels[i]? = some (if c.isLinear = true then [(1 : ℚ), 0] else [(0 : ℚ), 1]) := by
  have hlin : ∀ c ∈ choices, c.isLinear = true → c.trueLen ≤ maxValue := by
    intro c hc hcl
    have := (hv c hc).2.2.1 hcl
    omega
  refine ⟨_, init_eq_ok maxLen minLen maxValue choices hml hlin, ?_, ?_⟩
  · intro lab hlab
    obtain ⟨c, _, hcl⟩ := List.mem_map.mp hlab
    rw [genSampleOk_labels] at hcl
    by_cases hc : c.isLinear = true
    · rw [if_pos hc] at hcl
      exact hcl ▸ ⟨rfl, Or.inl rfl⟩
    · rw [if_neg hc] at hcl
      exact hcl ▸ ⟨rfl, Or.inr rfl⟩
  · intro i c hc
    simp only [List.getElem?_map, hc, Option.map_some']
    rw [genSampleOk_labels]

theorem claim8_one_hot_and_branch_witness :
    ∃ d, ToySequenceData.init 3 2 10 [⟨2, true, 1, []⟩, ⟨3, false, 0, [5, 0, 7]⟩] = some d :=
  Exists.imp (fun _ hd => hd.1)
    (claim8_one_hot_and_branch 3 2 10 [⟨2, true, 1, []⟩, ⟨3, false, 0, [5, 0, 7]⟩]
      (by decide) (by decide) (by decide))

end DynamicRNN
